import Mathlib

/-!
Verification of the `shared-stream` crate (`src/lib.rs`): a caching state
machine (`InnerState::get_item`) that turns a single-consumption stream into
a cloneable one, with a single-thread handle (`Shared`) and a cross-thread
handle (`Ashared`).

The embedding is shallow: the upstream stream is a deterministic state
machine `up : σ → σ × Poll (Option Item)` (mirroring
`Stream::poll_next`), the cache state machine is the inductive
`InnerState`, and the handle operations are pure state-passing functions.
As instrumentation for the side-effect claims, `get_item` additionally
returns the list of items the upstream emitted during the call and the
number of upstream polls performed; neither output influences the others.
-/

set_option autoImplicit false
set_option linter.unusedVariables false

namespace SharedStream

/-- Result of one poll: still pending (the poll suspended and registered the
waker), or ready with a value. Mirrors `core::task::Poll`. -/
inductive Poll (α : Type) where
  | pending : Poll α
  | ready : α → Poll α
deriving DecidableEq, Repr

/-- The shared cache state machine `InnerState<S>` from `src/lib.rs`:
`Running { values, stream }` while the upstream is not exhausted,
`Finished { values }` once the upstream has signalled end-of-sequence (the
upstream is dropped at that point, so `Finished` carries no stream). -/
inductive InnerState (σ Item : Type) where
  | Running : List Item → σ → InnerState σ Item
  | Finished : List Item → InnerState σ Item
deriving DecidableEq, Repr

/-- The cache contents (the `values` field of either variant). -/
def InnerState.values {σ Item : Type} : InnerState σ Item → List Item
  | .Running vs _ => vs
  | .Finished vs => vs

/-- The `loop` of `InnerState::get_item` in the `Running` state.
`up` is the upstream's `poll_next` (`Poll::Pending` ↦ `Poll.pending`,
`Poll::Ready(Some(v))` ↦ `Poll.ready (some v)`, `Poll::Ready(None)` ↦
`Poll.ready none`). Each iteration reads `values.get(idx)`; on a miss it
polls the upstream once: a pending poll propagates outward, a new item is
pushed and the loop re-checks `idx`, and end-of-sequence moves `values`
into `Finished` and returns the pre-poll cache read (which is `none`).
Returns `(state, result, emitted items, upstream poll count)`; the last two
components are instrumentation only. -/
def get_item_go {σ Item : Type} (up : σ → σ × Poll (Option Item)) (idx : Nat)
    (values : List Item) (stream : σ) :
    InnerState σ Item × Poll (Option Item) × List Item × Nat :=
  match hv : values.get? idx with
  | some v => (.Running values stream, .ready (some v), [], 0)
  | none =>
    match up stream with
    | (stream2, .pending) => (.Running values stream2, .pending, [], 1)
    | (_, .ready none) => (.Finished values, .ready none, [], 1)
    | (stream2, .ready (some v)) =>
      let r := get_item_go up idx (values ++ [v]) stream2
      (r.1, r.2.1, v :: r.2.2.1, r.2.2.2 + 1)
termination_by idx + 1 - values.length
decreasing_by
  have hlen : values.length ≤ idx := List.get?_eq_none.mp hv
  simp only [List.length_append, List.length_cons, List.length_nil]
  omega

/-- `InnerState::get_item(idx, cx)`: in `Running`, runs the loop above; in
`Finished`, reads the static cache (`values.get(idx).cloned()`) without any
upstream interaction. -/
def get_item {σ Item : Type} (up : σ → σ × Poll (Option Item)) :
    InnerState σ Item → Nat →
      InnerState σ Item × Poll (Option Item) × List Item × Nat
  | .Running values stream, idx => get_item_go up idx values stream
  | .Finished values, idx => (.Finished values, .ready (values.get? idx), [], 0)

/-- `<Shared<S> as Stream>::poll_next` (and identically
`<Ashared<S> as Stream>::poll_next`, modulo the lock), acting on the pair of
the shared `InnerState` and this handle's private cursor `idx`: it calls
`get_item(self.idx, cx)` and increments `idx` by 1 exactly when the result
is `Poll::Ready(Some(_))`. Returns
`(new state, new idx, result, emitted items, upstream poll count)`. -/
def poll_next {σ Item : Type} (up : σ → σ × Poll (Option Item))
    (inner : InnerState σ Item) (idx : Nat) :
    InnerState σ Item × Nat × Poll (Option Item) × List Item × Nat :=
  let r := get_item up inner idx
  match r.2.1 with
  | .ready (some _) => (r.1, idx + 1, r.2.1, r.2.2)
  | _ => (r.1, idx, r.2.1, r.2.2)

/-- `<Shared<S> as Stream>::size_hint` (and identically
`Ashared::size_hint`, modulo the lock): `upHint` is the upstream's own
`size_hint`. Never mutates the state. -/
def size_hint {σ Item : Type} (upHint : σ → Nat × Option Nat)
    (inner : InnerState σ Item) (idx : Nat) : Nat × Option Nat :=
  match inner with
  | .Running values stream =>
    let upstream_cached := values.length - idx
    let upstream := upHint stream
    (upstream.1 + upstream_cached,
     Option.map (fun v => v + upstream_cached) upstream.2)
  | .Finished values => (values.length - idx, some (values.length - idx))

/-- `<Shared<S> as FusedStream>::is_terminated` (and identically
`Ashared::is_terminated`, modulo the lock): `false` while `Running`, and
`values.len() <= self.idx` once `Finished`. Never mutates the state. -/
def is_terminated {σ Item : Type} (inner : InnerState σ Item) (idx : Nat) :
    Bool :=
  match inner with
  | .Running _ _ => false
  | .Finished values => decide (values.length ≤ idx)

/-- The guarded state of an `Ashared` handle's `Arc<RwLock<InnerState<S>>>`:
the shared `InnerState` plus the lock's poisoned flag (set when a prior
accessor panicked while holding the lock). -/
structure LockState (σ Item : Type) where
  poisoned : Bool
  inner : InnerState σ Item
deriving Repr

/-- `RwLock::read()/write()` followed by `.unwrap()`, as `Ashared` performs
on every access: yields the guarded state, or fails (the `unwrap` panic on
a `PoisonError`) when the lock is poisoned. -/
def lock_unwrap {σ Item : Type} (ls : LockState σ Item) :
    Except Unit (InnerState σ Item) :=
  if ls.poisoned then .error () else .ok ls.inner

/-- `<Ashared<S> as Stream>::poll_next`: takes the write lock (unwrapping
the lock result), then behaves exactly like `Shared::poll_next`. -/
def ashared_poll_next {σ Item : Type} (up : σ → σ × Poll (Option Item))
    (ls : LockState σ Item) (idx : Nat) :
    Except Unit
      (LockState σ Item × Nat × Poll (Option Item) × List Item × Nat) :=
  match lock_unwrap ls with
  | .error e => .error e
  | .ok inner =>
    let r := poll_next up inner idx
    .ok ({ poisoned := ls.poisoned, inner := r.1 }, r.2)

/-- `<Ashared<S> as Stream>::size_hint`: takes the read lock (unwrapping
the lock result), then computes exactly `Shared::size_hint`. -/
def ashared_size_hint {σ Item : Type} (upHint : σ → Nat × Option Nat)
    (ls : LockState σ Item) (idx : Nat) : Except Unit (Nat × Option Nat) :=
  Except.map (fun inner => size_hint upHint inner idx) (lock_unwrap ls)

/-- `<Ashared<S> as FusedStream>::is_terminated`: takes the read lock
(unwrapping the lock result), then computes exactly
`Shared::is_terminated`. -/
def ashared_is_terminated {σ Item : Type} (ls : LockState σ Item)
    (idx : Nat) : Except Unit Bool :=
  Except.map (fun inner => is_terminated inner idx) (lock_unwrap ls)

/-- A whole-system state: the one shared `InnerState` (the contents of the
`Rc<RefCell<..>>` / `Arc<RwLock<..>>`), the private cursor of every live
handle (handle `h` is position `h` of `handles`), and — instrumentation — the
log of every item the upstream has ever emitted, in emission order. -/
structure Sys (σ Item : Type) where
  inner : InnerState σ Item
  handles : List Nat
  log : List Item

/-- `Share::shared` / `Share::ashared` (via `Shared::new` / `Ashared::new`):
wraps a fresh upstream state into a `Running` state with an empty cache and
a single handle with `idx = 0`. -/
def Sys.wrap {σ Item : Type} (s0 : σ) : Sys σ Item :=
  ⟨.Running [] s0, [0], []⟩

/-- One observable operation on the shared system: `poll h` is
`poll_next` on handle `h`, `clone h` is `Clone::clone` on handle `h`
(duplicating the reference and copying its `idx` into a fresh handle). -/
inductive Op where
  | poll : Nat → Op
  | clone : Nat → Op
deriving DecidableEq, Repr

/-- Applies one operation to the system state (operations naming a dead
handle are no-ops). -/
def stepOp {σ Item : Type} (up : σ → σ × Poll (Option Item))
    (s : Sys σ Item) : Op → Sys σ Item
  | .poll h =>
    match s.handles.get? h with
    | none => s
    | some idx =>
      let r := poll_next up s.inner idx
      ⟨r.1, s.handles.set h r.2.1, s.log ++ r.2.2.2.1⟩
  | .clone h =>
    match s.handles.get? h with
    | none => s
    | some idx => ⟨s.inner, s.handles ++ [idx], s.log⟩

/-- Applies a sequence of operations, in order. -/
def run {σ Item : Type} (up : σ → σ × Poll (Option Item))
    (s : Sys σ Item) : List Op → Sys σ Item
  | [] => s
  | op :: ops => run up (stepOp up s op) ops

/-- A concrete instrumented upstream: its state is the list of its remaining
steps, where `some x` yields item `x` and `none` suspends once; when the
list is exhausted the stream signals end-of-sequence. Every stream
behaviour of the embedding is a run of this machine. -/
def eventsPoll {Item : Type} :
    List (Option Item) → List (Option Item) × Poll (Option Item)
  | [] => ([], .ready none)
  | none :: rest => (rest, .pending)
  | some x :: rest => (rest, .ready (some x))

/-- The items the `eventsPoll` upstream inside an `InnerState` can still
emit in the future (none once `Finished`). -/
def futureItems {Item : Type} :
    InnerState (List (Option Item)) Item → List Item
  | .Running _ rem => rem.filterMap id
  | .Finished _ => []

end SharedStream

namespace SharedStream

section Equations

variable {σ Item : Type} (up : σ → σ × Poll (Option Item)) (idx : Nat)

/-- Unfolding equation for `get_item_go`: cache hit. -/
theorem get_item_go_hit (values : List Item) (stream : σ) (v : Item)
    (hv : values.get? idx = some v) :
    get_item_go up idx values stream
      = (.Running values stream, .ready (some v), [], 0) := by
  rw [get_item_go]
  split
  · rename_i v2 hv2
    rw [hv] at hv2
    cases hv2
    rfl
  · rename_i hv2
    rw [hv] at hv2
    cases hv2

/-- Unfolding equation for `get_item_go`: cache miss, upstream pending. -/
theorem get_item_go_pend (values : List Item) (stream s2 : σ)
    (hv : values.get? idx = none) (hup : up stream = (s2, .pending)) :
    get_item_go up idx values stream
      = (.Running values s2, .pending, [], 1) := by
  rw [get_item_go]
  split
  · rename_i v2 hv2
    rw [hv] at hv2
    cases hv2
  · rw [hup]

/-- Unfolding equation for `get_item_go`: cache miss, upstream ends. -/
theorem get_item_go_end (values : List Item) (stream s2 : σ)
    (hv : values.get? idx = none) (hup : up stream = (s2, .ready none)) :
    get_item_go up idx values stream
      = (.Finished values, .ready none, [], 1) := by
  rw [get_item_go]
  split
  · rename_i v2 hv2
    rw [hv] at hv2
    cases hv2
  · rw [hup]

/-- Unfolding equation for `get_item_go`: cache miss, upstream yields an
item, which is pushed and the loop re-checks `idx`. -/
theorem get_item_go_item (values : List Item) (stream s2 : σ) (v : Item)
    (hv : values.get? idx = none) (hup : up stream = (s2, .ready (some v))) :
    get_item_go up idx values stream
      = ((get_item_go up idx (values ++ [v]) s2).1,
         (get_item_go up idx (values ++ [v]) s2).2.1,
         v :: (get_item_go up idx (values ++ [v]) s2).2.2.1,
         (get_item_go up idx (values ++ [v]) s2).2.2.2 + 1) := by
  rw [get_item_go]
  split
  · rename_i v2 hv2
    rw [hv] at hv2
    cases hv2
  · rw [hup]

end Equations

section GoLemmas

variable {σ Item : Type} (up : σ → σ × Poll (Option Item)) (idx : Nat)

/-- The cache after a `get_item_go` call is the cache before it followed by
exactly the items the upstream emitted during the call. -/
theorem get_item_go_values (values : List Item) (stream : σ) :
    (get_item_go up idx values stream).1.values
      = values ++ (get_item_go up idx values stream).2.2.1 := by
  induction values, stream using get_item_go.induct up idx with
  | case1 values stream v hv =>
    rw [get_item_go_hit up idx values stream v hv]
    simp [InnerState.values]
  | case2 values stream hv s2 hup =>
    rw [get_item_go_pend up idx values stream s2 hv hup]
    simp [InnerState.values]
  | case3 values stream hv s2 hup =>
    rw [get_item_go_end up idx values stream s2 hv hup]
    simp [InnerState.values]
  | case4 values stream hv s2 v hup ih =>
    rw [get_item_go_item up idx values stream s2 v hv hup]
    simpa using ih

/-- When `get_item_go` answers `Ready(Some(v))`, the item `v` sits at slot
`idx` of the resulting cache. -/
theorem get_item_go_ready_some (values : List Item) (stream : σ) (v : Item)
    (h : (get_item_go up idx values stream).2.1 = .ready (some v)) :
    (get_item_go up idx values stream).1.values.get? idx = some v := by
  induction values, stream using get_item_go.induct up idx with
  | case1 values stream v2 hv =>
    rw [get_item_go_hit up idx values stream v2 hv] at h ⊢
    have h2 : Poll.ready (some v2) = Poll.ready (some v) := h
    cases h2
    exact hv
  | case2 values stream hv s2 hup =>
    rw [get_item_go_pend up idx values stream s2 hv hup] at h
    cases h
  | case3 values stream hv s2 hup =>
    rw [get_item_go_end up idx values stream s2 hv hup] at h
    cases h
  | case4 values stream hv s2 v2 hup ih =>
    rw [get_item_go_item up idx values stream s2 v2 hv hup] at h ⊢
    exact ih h

/-- `get_item_go` reaches the `Finished` state only with the answer
`Ready(None)`. -/
theorem get_item_go_finished (values : List Item) (stream : σ)
    (vs : List Item)
    (h : (get_item_go up idx values stream).1 = .Finished vs) :
    (get_item_go up idx values stream).2.1 = .ready none := by
  induction values, stream using get_item_go.induct up idx with
  | case1 values stream v hv =>
    rw [get_item_go_hit up idx values stream v hv] at h
    cases h
  | case2 values stream hv s2 hup =>
    rw [get_item_go_pend up idx values stream s2 hv hup] at h
    cases h
  | case3 values stream hv s2 hup =>
    rw [get_item_go_end up idx values stream s2 hv hup]
  | case4 values stream hv s2 v hup ih =>
    rw [get_item_go_item up idx values stream s2 v hv hup] at h ⊢
    exact ih h

/-- When `get_item_go` answers `Ready(None)`, the state has moved to
`Finished` carrying the accumulated cache verbatim, slot `idx` is past the
final cache, and the upstream did signal end-of-sequence. -/
theorem get_item_go_ready_none (values : List Item) (stream : σ)
    (h : (get_item_go up idx values stream).2.1 = .ready none) :
    (get_item_go up idx values stream).1
        = .Finished (values ++ (get_item_go up idx values stream).2.2.1)
      ∧ (values ++ (get_item_go up idx values stream).2.2.1).get? idx = none
      ∧ ∃ s1 s2, up s1 = (s2, .ready none) := by
  induction values, stream using get_item_go.induct up idx with
  | case1 values stream v hv =>
    rw [get_item_go_hit up idx values stream v hv] at h
    cases h
  | case2 values stream hv s2 hup =>
    rw [get_item_go_pend up idx values stream s2 hv hup] at h
    cases h
  | case3 values stream hv s2 hup =>
    rw [get_item_go_end up idx values stream s2 hv hup]
    exact ⟨by simp, by simpa using hv, stream, s2, hup⟩
  | case4 values stream hv s2 v hup ih =>
    rw [get_item_go_item up idx values stream s2 v hv hup] at h ⊢
    obtain ⟨h1, h2, h3⟩ := ih h
    refine ⟨by rw [h1]; simp, by simpa using h2, h3⟩

/-- A call whose requested slot is already strictly inside the cache does
not poll the upstream at all and leaves the state untouched. -/
theorem get_item_go_polls_zero (values : List Item) (stream : σ)
    (h : idx < values.length) :
    get_item_go up idx values stream
      = (.Running values stream, .ready (some (values.get ⟨idx, h⟩)), [], 0) :=
  get_item_go_hit up idx values stream _ (List.get?_eq_get h)

/-- A call whose requested slot is at most the cache length polls the
upstream at most once. -/
theorem get_item_go_polls_le_one (values : List Item) (stream : σ)
    (h : idx ≤ values.length) :
    (get_item_go up idx values stream).2.2.2 ≤ 1 := by
  rcases Nat.lt_or_ge idx values.length with hlt | hge
  · rw [get_item_go_polls_zero up idx values stream hlt]
    exact Nat.zero_le 1
  · have hv : values.get? idx = none := List.get?_len_le hge
    rcases hup : up stream with ⟨s2, q⟩
    cases q with
    | pending =>
      rw [get_item_go_pend up idx values stream s2 hv hup]
    | ready o =>
      cases o with
      | none =>
        rw [get_item_go_end up idx values stream s2 hv hup]
      | some v =>
        rw [get_item_go_item up idx values stream s2 v hv hup]
        have hidx : idx < (values ++ [v]).length := by
          simp only [List.length_append, List.length_cons, List.length_nil]
          omega
        rw [get_item_go_polls_zero up idx (values ++ [v]) s2 hidx]

end GoLemmas

end SharedStream

namespace SharedStream

section EventsLemmas

variable {Item : Type}

/-- Inversion for `eventsPoll`: a pending poll consumed one `none` event. -/
theorem eventsPoll_pend_inv {rem s2 : List (Option Item)}
    (h : eventsPoll rem = (s2, .pending)) : rem = none :: s2 := by
  cases rem with
  | nil => simp [eventsPoll, Prod.ext_iff] at h
  | cons e rest =>
    cases e with
    | none =>
      simp only [eventsPoll, Prod.mk.injEq] at h
      rw [h.1]
    | some x => simp [eventsPoll, Prod.ext_iff] at h

/-- Inversion for `eventsPoll`: an end-of-sequence poll happens exactly on
the exhausted event list. -/
theorem eventsPoll_end_inv {rem s2 : List (Option Item)}
    (h : eventsPoll rem = (s2, .ready none)) : rem = [] := by
  cases rem with
  | nil => rfl
  | cons e rest =>
    cases e with
    | none => simp [eventsPoll, Prod.ext_iff] at h
    | some x => simp [eventsPoll, Prod.ext_iff] at h

/-- Inversion for `eventsPoll`: an item poll consumed one `some` event. -/
theorem eventsPoll_item_inv {rem s2 : List (Option Item)} {x : Item}
    (h : eventsPoll rem = (s2, .ready (some x))) : rem = some x :: s2 := by
  cases rem with
  | nil => simp [eventsPoll, Prod.ext_iff] at h
  | cons e rest =>
    cases e with
    | none => simp [eventsPoll, Prod.ext_iff] at h
    | some y =>
      simp only [eventsPoll, Prod.mk.injEq, Poll.ready.injEq,
        Option.some.injEq] at h
      rw [h.1, h.2]

/-- Along a `get_item_go` call driven by the instrumented upstream, the
total sequence "cache so far ++ items still to come" is unchanged: items
move from the upstream into the cache, one at a time, and are never
duplicated or dropped. -/
theorem get_item_go_events (idx : Nat) (values : List Item)
    (rem : List (Option Item)) :
    (get_item_go eventsPoll idx values rem).1.values
        ++ futureItems (get_item_go eventsPoll idx values rem).1
      = values ++ rem.filterMap id := by
  induction values, rem using get_item_go.induct eventsPoll idx with
  | case1 values rem v hv =>
    rw [get_item_go_hit eventsPoll idx values rem v hv]
    simp [InnerState.values, futureItems]
  | case2 values rem hv s2 hup =>
    rw [get_item_go_pend eventsPoll idx values rem s2 hv hup]
    rw [eventsPoll_pend_inv hup]
    simp [InnerState.values, futureItems]
  | case3 values rem hv s2 hup =>
    rw [get_item_go_end eventsPoll idx values rem s2 hv hup]
    rw [eventsPoll_end_inv hup]
    simp [InnerState.values, futureItems]
  | case4 values rem hv s2 v hup ih =>
    rw [get_item_go_item eventsPoll idx values rem s2 v hv hup]
    rw [eventsPoll_item_inv hup]
    simp only [List.filterMap_cons, id]
    rw [show (get_item_go eventsPoll idx (values ++ [v]) s2).1.values
          ++ futureItems (get_item_go eventsPoll idx (values ++ [v]) s2).1
        = (values ++ [v]) ++ s2.filterMap id from ih]
    simp

end EventsLemmas

section StateLemmas

variable {σ Item : Type} (up : σ → σ × Poll (Option Item))

/-- `get_item` on a `Finished` state: returns the static cache value,
leaves the state untouched, emits nothing and never polls. -/
theorem get_item_finished (values : List Item) (idx : Nat) :
    get_item up (.Finished values) idx
      = (.Finished values, .ready (values.get? idx), [], 0) := rfl

/-- The cache after any `get_item` call is the cache before it followed by
exactly the items emitted during the call. -/
theorem get_item_values (st : InnerState σ Item) (idx : Nat) :
    (get_item up st idx).1.values
      = st.values ++ (get_item up st idx).2.2.1 := by
  cases st with
  | Running values stream => exact get_item_go_values up idx values stream
  | Finished values => simp [get_item, InnerState.values]

/-- When `get_item` answers `Ready(Some(v))`, `v` sits at slot `idx` of the
resulting cache. -/
theorem get_item_ready_some (st : InnerState σ Item) (idx : Nat) (v : Item)
    (h : (get_item up st idx).2.1 = .ready (some v)) :
    (get_item up st idx).1.values.get? idx = some v := by
  cases st with
  | Running values stream => exact get_item_go_ready_some up idx values stream v h
  | Finished values =>
    have h2 : Poll.ready (values.get? idx) = Poll.ready (some v) := h
    have h3 : values.get? idx = some v := by injection h2
    exact h3

/-- `get_item` never leaves a `Finished` state. -/
theorem get_item_finished_terminal (vs : List Item) (idx : Nat) :
    (get_item up (.Finished vs) idx).1 = .Finished vs := rfl

/-- `poll_next` relates to `get_item`: same resulting state, result,
emissions and poll count, and the cursor moves to `idx + 1` exactly on
`Ready(Some(_))` and stays at `idx` otherwise. -/
theorem poll_next_eq (inner : InnerState σ Item) (idx : Nat) :
    (poll_next up inner idx).1 = (get_item up inner idx).1
  ∧ (poll_next up inner idx).2.2.1 = (get_item up inner idx).2.1
  ∧ (poll_next up inner idx).2.2.2.1 = (get_item up inner idx).2.2.1
  ∧ (poll_next up inner idx).2.2.2.2 = (get_item up inner idx).2.2.2
  ∧ ((∃ v, (get_item up inner idx).2.1 = .ready (some v))
        → (poll_next up inner idx).2.1 = idx + 1)
  ∧ ((¬ ∃ v, (get_item up inner idx).2.1 = .ready (some v))
        → (poll_next up inner idx).2.1 = idx) := by
  simp only [poll_next]
  rcases hr : (get_item up inner idx).2.1 with _ | o
  · simp [hr]
  · cases o with
    | none => simp [hr]
    | some v => simp [hr]

/-- The cursor never moves backwards in one `poll_next` call. -/
theorem poll_next_idx_mono (inner : InnerState σ Item) (idx : Nat) :
    idx ≤ (poll_next up inner idx).2.1 := by
  by_cases h : ∃ v, (get_item up inner idx).2.1 = .ready (some v)
  · rw [(poll_next_eq up inner idx).2.2.2.2.1 h]
    omega
  · rw [(poll_next_eq up inner idx).2.2.2.2.2 h]

/-- A cursor within the cache stays within the cache across `poll_next`. -/
theorem poll_next_idx_le (inner : InnerState σ Item) (idx : Nat)
    (h : idx ≤ inner.values.length) :
    (poll_next up inner idx).2.1 ≤ (poll_next up inner idx).1.values.length := by
  have hval : (get_item up inner idx).1.values
      = inner.values ++ (get_item up inner idx).2.2.1 := get_item_values up inner idx
  by_cases hs : ∃ v, (get_item up inner idx).2.1 = .ready (some v)
  · obtain ⟨v, hv⟩ := hs
    have hget : (get_item up inner idx).1.values.get? idx = some v :=
      get_item_ready_some up inner idx v hv
    have hlt : idx < (get_item up inner idx).1.values.length := by
      rcases List.get?_eq_some.mp hget with ⟨hlt, _⟩
      exact hlt
    rw [(poll_next_eq up inner idx).2.2.2.2.1 ⟨v, hv⟩,
        (poll_next_eq up inner idx).1]
    omega
  · rw [(poll_next_eq up inner idx).2.2.2.2.2 hs, (poll_next_eq up inner idx).1,
        hval]
    simp only [List.length_append]
    omega

end StateLemmas

end SharedStream

namespace SharedStream

section SysLemmas

variable {σ Item : Type} (up : σ → σ × Poll (Option Item))

/-- Unfolding: a `poll` of a dead handle is a no-op. -/
theorem stepOp_poll_none (s : Sys σ Item) (h : Nat)
    (hh : s.handles.get? h = none) : stepOp up s (.poll h) = s := by
  simp only [stepOp, hh]

/-- Unfolding: a `poll` of live handle `h` runs `poll_next` at its cursor,
stores the new state and cursor, and extends the emission log. -/
theorem stepOp_poll_some (s : Sys σ Item) (h idx : Nat)
    (hh : s.handles.get? h = some idx) :
    stepOp up s (.poll h)
      = ⟨(poll_next up s.inner idx).1,
         s.handles.set h (poll_next up s.inner idx).2.1,
         s.log ++ (poll_next up s.inner idx).2.2.2.1⟩ := by
  simp only [stepOp, hh]

/-- Unfolding: a `clone` of a dead handle is a no-op. -/
theorem stepOp_clone_none (s : Sys σ Item) (h : Nat)
    (hh : s.handles.get? h = none) : stepOp up s (.clone h) = s := by
  simp only [stepOp, hh]

/-- Unfolding: a `clone` of live handle `h` adds a fresh handle carrying a
copy of its cursor, touching nothing else. -/
theorem stepOp_clone_some (s : Sys σ Item) (h idx : Nat)
    (hh : s.handles.get? h = some idx) :
    stepOp up s (.clone h) = ⟨s.inner, s.handles ++ [idx], s.log⟩ := by
  simp only [stepOp, hh]

/-- One step only ever appends to the shared cache. -/
theorem stepOp_values_append (s : Sys σ Item) (op : Op) :
    ∃ t, (stepOp up s op).inner.values = s.inner.values ++ t := by
  cases op with
  | poll h =>
    simp only [stepOp]
    rcases hh : s.handles.get? h with _ | idx
    · exact ⟨[], by simp⟩
    · refine ⟨(get_item up s.inner idx).2.2.1, ?_⟩
      simp only [(poll_next_eq up s.inner idx).1]
      exact get_item_values up s.inner idx
  | clone h =>
    simp only [stepOp]
    rcases hh : s.handles.get? h with _ | idx
    · exact ⟨[], by simp⟩
    · exact ⟨[], by simp⟩

/-- A whole run only ever appends to the shared cache. -/
theorem run_values_append (s : Sys σ Item) (ops : List Op) :
    ∃ t, (run up s ops).inner.values = s.inner.values ++ t := by
  induction ops generalizing s with
  | nil => exact ⟨[], by simp [run]⟩
  | cons op ops ih =>
    obtain ⟨t1, h1⟩ := stepOp_values_append up s op
    obtain ⟨t2, h2⟩ := ih (stepOp up s op)
    exact ⟨t1 ++ t2, by simp only [run, h2, h1, List.append_assoc]⟩

/-- A cached slot never changes its value once filled: one step. -/
theorem stepOp_get?_stable (s : Sys σ Item) (op : Op) (i : Nat) (v : Item)
    (h : s.inner.values.get? i = some v) :
    (stepOp up s op).inner.values.get? i = some v := by
  obtain ⟨t, ht⟩ := stepOp_values_append up s op
  have hlt : i < s.inner.values.length := (List.get?_eq_some.mp h).1
  rw [ht, List.get?_append hlt]
  exact h

/-- A cached slot never changes its value once filled: whole runs. -/
theorem run_get?_stable (s : Sys σ Item) (ops : List Op) (i : Nat) (v : Item)
    (h : s.inner.values.get? i = some v) :
    (run up s ops).inner.values.get? i = some v := by
  induction ops generalizing s with
  | nil => exact h
  | cons op ops ih => exact ih (stepOp up s op) (stepOp_get?_stable up s op i v h)

/-- `Finished` is terminal and keeps its cache verbatim: one step. -/
theorem stepOp_finished_terminal (s : Sys σ Item) (op : Op) (vs : List Item)
    (h : s.inner = .Finished vs) :
    (stepOp up s op).inner = .Finished vs := by
  cases op with
  | poll h2 =>
    rcases hh : s.handles.get? h2 with _ | idx
    · rw [stepOp_poll_none up s h2 hh]
      exact h
    · rw [stepOp_poll_some up s h2 idx hh]
      show (poll_next up s.inner idx).1 = InnerState.Finished vs
      rw [(poll_next_eq up s.inner idx).1, h, get_item_finished]
  | clone h2 =>
    rcases hh : s.handles.get? h2 with _ | idx
    · rw [stepOp_clone_none up s h2 hh]
      exact h
    · rw [stepOp_clone_some up s h2 idx hh]
      exact h

/-- `Finished` is terminal and keeps its cache verbatim: whole runs. -/
theorem run_finished_terminal (s : Sys σ Item) (ops : List Op) (vs : List Item)
    (h : s.inner = .Finished vs) :
    (run up s ops).inner = .Finished vs := by
  induction ops generalizing s with
  | nil => exact h
  | cons op ops ih =>
    exact ih (stepOp up s op) (stepOp_finished_terminal up s op vs h)

/-- The cursor-in-cache invariant: every handle's cursor is at most the
cache length. -/
def IdxInv (s : Sys σ Item) : Prop :=
  ∀ i ∈ s.handles, i ≤ s.inner.values.length

/-- The cursor-in-cache invariant is preserved by every operation. -/
theorem stepOp_idxInv (s : Sys σ Item) (op : Op) (hinv : IdxInv s) :
    IdxInv (stepOp up s op) := by
  cases op with
  | poll h =>
    rcases hh : s.handles.get? h with _ | idx
    · rw [stepOp_poll_none up s h hh]
      exact hinv
    · rw [stepOp_poll_some up s h idx hh]
      intro i hi
      show i ≤ (poll_next up s.inner idx).1.values.length
      have hi2 : i ∈ s.handles.set h (poll_next up s.inner idx).2.1 := hi
      have hvals : (poll_next up s.inner idx).1.values
          = s.inner.values ++ (get_item up s.inner idx).2.2.1 := by
        rw [(poll_next_eq up s.inner idx).1]
        exact get_item_values up s.inner idx
      rcases List.mem_or_eq_of_mem_set hi2 with hold | hnew
      · have hb := hinv i hold
        rw [hvals]
        simp only [List.length_append]
        omega
      · rw [hnew]
        exact poll_next_idx_le up s.inner idx (hinv idx (List.get?_mem hh))
  | clone h =>
    rcases hh : s.handles.get? h with _ | idx
    · rw [stepOp_clone_none up s h hh]
      exact hinv
    · rw [stepOp_clone_some up s h idx hh]
      intro i hi
      show i ≤ s.inner.values.length
      have hi2 : i ∈ s.handles ++ [idx] := hi
      rcases List.mem_append.mp hi2 with hold | hnew
      · exact hinv i hold
      · rw [List.mem_singleton.mp hnew]
        exact hinv idx (List.get?_mem hh)

/-- The cursor-in-cache invariant holds along every run. -/
theorem run_idxInv (s : Sys σ Item) (ops : List Op) (hinv : IdxInv s) :
    IdxInv (run up s ops) := by
  induction ops generalizing s with
  | nil => exact hinv
  | cons op ops ih => exact ih (stepOp up s op) (stepOp_idxInv up s op hinv)

/-- The cursor-in-cache invariant holds of a freshly wrapped stream. -/
theorem wrap_idxInv (s0 : σ) : IdxInv (Sys.wrap s0 : Sys σ Item) := by
  intro i hi
  simp only [Sys.wrap, List.mem_singleton] at hi
  rw [hi]
  exact Nat.zero_le _

end SysLemmas

section EventsSysLemmas

variable {Item : Type}

/-- The instrumentation invariant for the concrete upstream: the emission
log is exactly the cache, and cache plus still-to-come items is exactly the
full item sequence of the source. -/
def EventsInv (want : List Item) (s : Sys (List (Option Item)) Item) : Prop :=
  s.log = s.inner.values ∧ s.inner.values ++ futureItems s.inner = want

/-- `get_item` preserves the "cache ++ still-to-come = full sequence"
bookkeeping of the instrumented upstream. -/
theorem get_item_events (want : List Item)
    (st : InnerState (List (Option Item)) Item) (idx : Nat)
    (h : st.values ++ futureItems st = want) :
    (get_item eventsPoll st idx).1.values
        ++ futureItems (get_item eventsPoll st idx).1 = want := by
  cases st with
  | Running values rem =>
    rw [show (get_item eventsPoll (.Running values rem) idx)
          = get_item_go eventsPoll idx values rem from rfl]
    rw [get_item_go_events idx values rem]
    simpa [InnerState.values, futureItems] using h
  | Finished values => exact h

/-- The instrumentation invariant is preserved by every operation. -/
theorem stepOp_eventsInv (want : List Item)
    (s : Sys (List (Option Item)) Item) (op : Op)
    (hinv : EventsInv want s) : EventsInv want (stepOp eventsPoll s op) := by
  obtain ⟨hlog, hitems⟩ := hinv
  cases op with
  | poll h =>
    rcases hh : s.handles.get? h with _ | idx
    · rw [stepOp_poll_none eventsPoll s h hh]
      exact ⟨hlog, hitems⟩
    · rw [stepOp_poll_some eventsPoll s h idx hh]
      constructor
      · show s.log ++ (poll_next eventsPoll s.inner idx).2.2.2.1
            = (poll_next eventsPoll s.inner idx).1.values
        rw [(poll_next_eq eventsPoll s.inner idx).1,
            (poll_next_eq eventsPoll s.inner idx).2.2.1,
            get_item_values eventsPoll s.inner idx, hlog]
      · show (poll_next eventsPoll s.inner idx).1.values
            ++ futureItems (poll_next eventsPoll s.inner idx).1 = want
        rw [(poll_next_eq eventsPoll s.inner idx).1]
        exact get_item_events want s.inner idx hitems
  | clone h =>
    rcases hh : s.handles.get? h with _ | idx
    · rw [stepOp_clone_none eventsPoll s h hh]
      exact ⟨hlog, hitems⟩
    · rw [stepOp_clone_some eventsPoll s h idx hh]
      exact ⟨hlog, hitems⟩

/-- The instrumentation invariant holds along every run. -/
theorem run_eventsInv (want : List Item)
    (s : Sys (List (Option Item)) Item) (ops : List Op)
    (hinv : EventsInv want s) : EventsInv want (run eventsPoll s ops) := by
  induction ops generalizing s with
  | nil => exact hinv
  | cons op ops ih =>
    exact ih (stepOp eventsPoll s op) (stepOp_eventsInv want s op hinv)

end EventsSysLemmas

end SharedStream

namespace SharedStream

/-- C1: for any wrapped producer (any event sequence `xs` of the
instrumented upstream) and any interleaving of clone/poll operations by any
number of handles, the global emission log equals the shared cache, and the
log followed by the items still to come is exactly the producer's full item
sequence — so every upstream item is produced at most once, in order, no
matter how many cursors later request the same index. -/
theorem upstream_polled_at_most_once_per_item {Item : Type}
    (xs : List (Option Item)) (ops : List Op) :
    (run eventsPoll (Sys.wrap xs) ops).log
        = (run eventsPoll (Sys.wrap xs) ops).inner.values
  ∧ (run eventsPoll (Sys.wrap xs) ops).log
        ++ futureItems (run eventsPoll (Sys.wrap xs) ops).inner
      = xs.filterMap id := by
  have hbase : EventsInv (xs.filterMap id)
      (Sys.wrap xs : Sys (List (Option Item)) Item) := by
    constructor
    · rfl
    · simp [Sys.wrap, InnerState.values, futureItems]
  have h := run_eventsInv (xs.filterMap id) (Sys.wrap xs) ops hbase
  exact ⟨h.1, by rw [h.1]; exact h.2⟩

/-- C2: `get_item(idx, cx)` returns the cached item when `idx` is already
within the cache, without touching upstream; otherwise, while `Running`, it
drives the upstream one step at a time, appending each new item and
re-checking `idx` (and propagating a pending poll); on upstream completion
it transitions to `Finished` and returns the value at `idx` from the
now-static cache — the no-item signal whenever `idx` is at or past the
final length — and that end result is stable on every later call with the
same `idx`. -/
theorem get_item_contract {σ Item : Type} (up : σ → σ × Poll (Option Item))
    (values : List Item) (stream : σ) (idx : Nat) :
    (∀ v, values.get? idx = some v →
        get_item up (.Running values stream) idx
          = (.Running values stream, .ready (some v), [], 0))
  ∧ (∀ s2 v, values.get? idx = none → up stream = (s2, .ready (some v)) →
        get_item up (.Running values stream) idx
          = ((get_item up (.Running (values ++ [v]) s2) idx).1,
             (get_item up (.Running (values ++ [v]) s2) idx).2.1,
             v :: (get_item up (.Running (values ++ [v]) s2) idx).2.2.1,
             (get_item up (.Running (values ++ [v]) s2) idx).2.2.2 + 1))
  ∧ (∀ s2, values.get? idx = none → up stream = (s2, .pending) →
        get_item up (.Running values stream) idx
          = (.Running values s2, .pending, [], 1))
  ∧ (∀ s2, values.get? idx = none → up stream = (s2, .ready none) →
        get_item up (.Running values stream) idx
          = (.Finished values, .ready (values.get? idx), [], 1))
  ∧ (get_item up (.Finished values) idx
        = (.Finished values, .ready (values.get? idx), [], 0))
  ∧ (values.length ≤ idx →
        get_item up (.Finished values) idx
          = (.Finished values, .ready none, [], 0)) := by
  refine ⟨?_, ?_, ?_, ?_, rfl, ?_⟩
  · intro v hv
    exact get_item_go_hit up idx values stream v hv
  · intro s2 v hv hup
    exact get_item_go_item up idx values stream s2 v hv hup
  · intro s2 hv hup
    exact get_item_go_pend up idx values stream s2 hv hup
  · intro s2 hv hup
    rw [hv]
    exact get_item_go_end up idx values stream s2 hv hup
  · intro hl
    rw [get_item_finished, List.get?_len_le hl]

/-- Witness for C2: a concrete cache hit returns the cached item and leaves
everything untouched. -/
theorem get_item_contract_witness :
    get_item eventsPoll (.Running [5] ([some 6] : List (Option Nat))) 0
      = (.Running [5] [some 6], .ready (some 5), [], 0) :=
  (get_item_contract eventsPoll [5] [some 6] 0).1 5 rfl

/-- C3: `size_hint` is computed without mutating state; while `Running` the
bounds are the upstream's own bounds plus `cache.len() - idx` (upper bound
unknown when the upstream's is unknown, via `Option.map`); once `Finished`,
both bounds are exactly `cache.len() - idx`; and the cross-thread handle
computes the identical value through an unpoisoned lock. -/
theorem size_hint_bounds {σ Item : Type} (upHint : σ → Nat × Option Nat)
    (values : List Item) (stream : σ) (idx : Nat)
    (inner : InnerState σ Item) :
    size_hint upHint (.Running values stream) idx
        = ((upHint stream).1 + (values.length - idx),
           Option.map (fun v => v + (values.length - idx)) (upHint stream).2)
  ∧ size_hint upHint (.Finished values) idx
        = (values.length - idx, some (values.length - idx))
  ∧ ashared_size_hint upHint ⟨false, inner⟩ idx
        = .ok (size_hint upHint inner idx) := by
  refine ⟨rfl, rfl, ?_⟩
  simp [ashared_size_hint, lock_unwrap, Except.map]

/-- C4: `is_terminated` returns `false` whenever the shared state is
`Running`; once `Finished` it returns `true` exactly when the handle's
`idx` is at or past `cache.len()`; and the cross-thread handle computes the
identical value through an unpoisoned lock. The embedding is a pure
function of the state, so it mutates nothing. -/
theorem is_terminated_spec {σ Item : Type} (values : List Item) (stream : σ)
    (idx : Nat) (inner : InnerState σ Item) :
    is_terminated (.Running values stream : InnerState σ Item) idx = false
  ∧ is_terminated (.Finished values : InnerState σ Item) idx
      = decide (values.length ≤ idx)
  ∧ (is_terminated (.Finished values : InnerState σ Item) idx = true
        ↔ values.length ≤ idx)
  ∧ ashared_is_terminated (⟨false, inner⟩ : LockState σ Item) idx
      = .ok (is_terminated inner idx) := by
  refine ⟨rfl, rfl, by simp [is_terminated], ?_⟩
  simp [ashared_is_terminated, lock_unwrap, Except.map]

/-- C5: the value a handle observes at cursor `idx` is the cache entry at
slot `idx`, and a filled cache slot never changes along any further run —
so any two clones that ever read index `i` observe the identical value,
with no re-computation. -/
theorem value_consistency {σ Item : Type} (up : σ → σ × Poll (Option Item))
    (inner : InnerState σ Item) (idx : Nat) (v : Item) (s : Sys σ Item)
    (ops : List Op) (i : Nat) :
    ((poll_next up inner idx).2.2.1 = .ready (some v) →
        (poll_next up inner idx).1.values.get? idx = some v)
  ∧ (s.inner.values.get? i = some v →
        (run up s ops).inner.values.get? i = some v) := by
  constructor
  · intro h
    rw [(poll_next_eq up inner idx).2.1] at h
    rw [(poll_next_eq up inner idx).1]
    exact get_item_ready_some up inner idx v h
  · exact run_get?_stable up s ops i v

/-- Witness for C5: a concrete observation lands in the cache and survives
a later step by another handle. -/
theorem value_consistency_witness :
    (poll_next eventsPoll
        (.Running ([] : List Nat) [some 7]) 0).1.values.get? 0 = some 7
  ∧ (run eventsPoll (⟨.Finished [7], [0], [7]⟩ : Sys (List (Option Nat)) Nat)
        [Op.poll 0]).inner.values.get? 0 = some 7 := by
  constructor
  · exact (value_consistency eventsPoll (.Running [] [some 7]) 0 7
        ⟨.Finished [7], [0], [7]⟩ [] 0).1
      (by simp [poll_next, get_item, get_item_go, eventsPoll])
  · exact (value_consistency eventsPoll (.Running [] [some 7]) 0 7
        ⟨.Finished [7], [0], [7]⟩ [Op.poll 0] 0).2 rfl

/-- C6: the cache only grows (every step appends), `Finished` is terminal
and keeps its cache verbatim, the `Running → Finished` transition returns
the accumulated cache verbatim and happens exactly on (and only with) the
upstream's end-of-sequence signal. -/
theorem cache_state_machine_invariants {σ Item : Type}
    (up : σ → σ × Poll (Option Item)) (s : Sys σ Item) (op : Op)
    (vs values : List Item) (stream : σ) (idx : Nat) :
    (∃ t, (stepOp up s op).inner.values = s.inner.values ++ t)
  ∧ (s.inner = .Finished vs → (stepOp up s op).inner = .Finished vs)
  ∧ (∀ vs2, (get_item up (.Running values stream) idx).1 = .Finished vs2 →
        vs2 = values ++ (get_item up (.Running values stream) idx).2.2.1
        ∧ (get_item up (.Running values stream) idx).2.1 = .ready none
        ∧ ∃ s1 s2, up s1 = (s2, .ready none))
  ∧ ((get_item up (.Running values stream) idx).2.1 = .ready none →
        (get_item up (.Running values stream) idx).1
          = .Finished
              (values ++ (get_item up (.Running values stream) idx).2.2.1)) := by
  refine ⟨stepOp_values_append up s op, stepOp_finished_terminal up s op vs,
    ?_, ?_⟩
  · intro vs2 hfin
    have hres : (get_item_go up idx values stream).2.1 = .ready none :=
      get_item_go_finished up idx values stream vs2 hfin
    obtain ⟨h1, h2, h3⟩ := get_item_go_ready_none up idx values stream hres
    refine ⟨?_, hres, h3⟩
    have h4 : InnerState.Finished (σ := σ) vs2
        = InnerState.Finished (values ++ (get_item_go up idx values stream).2.2.1) := by
      rw [← hfin]
      exact h1
    injection h4
  · intro hres
    exact (get_item_go_ready_none up idx values stream hres).1

/-- Witness for C6: on an already-exhausted concrete upstream, `get_item`
finishes with the end signal, triggered by an actual end-of-sequence poll. -/
theorem cache_state_machine_invariants_witness :
    (get_item eventsPoll
        (.Running ([] : List Nat) ([] : List (Option Nat))) 0).2.1
      = Poll.ready none
  ∧ ∃ s1 s2 : List (Option Nat), eventsPoll s1 = (s2, Poll.ready none) := by
  have h := (cache_state_machine_invariants eventsPoll
      (Sys.wrap [] : Sys (List (Option Nat)) Nat) (Op.poll 0) [] [] [] 0).2.2.1
      [] (by simp [get_item, get_item_go, eventsPoll])
  exact ⟨h.2.1, h.2.2⟩

/-- C7: a handle's cursor starts at 0 on wrap, `clone` copies it into the
fresh handle, `poll_next` moves it to `idx + 1` exactly when it yields an
item and leaves it at `idx` on a suspension or the end signal, it never
decreases, and one handle's `poll_next` never changes another handle's
cursor. -/
theorem cursor_index_discipline {σ Item : Type}
    (up : σ → σ × Poll (Option Item)) (s : Sys σ Item) (hA hB : Nat)
    (idx : Nat) (inner : InnerState σ Item) (s0 : σ) :
    (Sys.wrap s0 : Sys σ Item).handles = [0]
  ∧ (∀ i, s.handles.get? hA = some i →
        (stepOp up s (.clone hA)).handles = s.handles ++ [i])
  ∧ (∀ v, (poll_next up inner idx).2.2.1 = .ready (some v) →
        (poll_next up inner idx).2.1 = idx + 1)
  ∧ ((poll_next up inner idx).2.2.1 = .pending →
        (poll_next up inner idx).2.1 = idx)
  ∧ ((poll_next up inner idx).2.2.1 = .ready none →
        (poll_next up inner idx).2.1 = idx)
  ∧ idx ≤ (poll_next up inner idx).2.1
  ∧ (hB ≠ hA → (stepOp up s (.poll hA)).handles.get? hB
        = s.handles.get? hB) := by
  refine ⟨rfl, ?_, ?_, ?_, ?_, poll_next_idx_mono up inner idx, ?_⟩
  · intro i hh
    rw [stepOp_clone_some up s hA i hh]
  · intro v h
    rw [(poll_next_eq up inner idx).2.1] at h
    exact (poll_next_eq up inner idx).2.2.2.2.1 ⟨v, h⟩
  · intro h
    rw [(poll_next_eq up inner idx).2.1] at h
    refine (poll_next_eq up inner idx).2.2.2.2.2 ?_
    rintro ⟨v, hv⟩
    rw [h] at hv
    cases hv
  · intro h
    rw [(poll_next_eq up inner idx).2.1] at h
    refine (poll_next_eq up inner idx).2.2.2.2.2 ?_
    rintro ⟨v, hv⟩
    rw [h] at hv
    cases hv
  · intro hne
    rcases hh : s.handles.get? hA with _ | i
    · rw [stepOp_poll_none up s hA hh]
    · rw [stepOp_poll_some up s hA i hh]
      exact List.get?_set_ne _ s.handles (Ne.symm hne)

/-- Witness for C7: a concrete successful poll advances the cursor from 0
to 1. -/
theorem cursor_index_discipline_witness :
    (poll_next eventsPoll (.Running ([] : List Nat) [some 3]) 0).2.1
      = 0 + 1 :=
  (cursor_index_discipline eventsPoll
      (Sys.wrap [some 3] : Sys (List (Option Nat)) Nat) 0 1 0
      (.Running [] [some 3]) [some 3]).2.2.1 3
    (by simp [poll_next, get_item, get_item_go, eventsPoll])

/-- C8 counterexample: a single `get_item` invocation can step the upstream
more than once. With an empty cache and requested index 1, one call polls
the instrumented upstream twice (each appended item is re-checked against
index 1 and found insufficient after the first poll). The claim's "the
upstream producer is stepped no more than once during that call, for every
invocation of get_item" is therefore false as stated. -/
theorem get_item_two_polls_one_call :
    (get_item eventsPoll (.Running ([] : List Nat) [some 1, some 2]) 1).2.2.2
      = 2 := by
  simp [get_item, get_item_go, eventsPoll]

/-- C8 amended: a `get_item` call whose requested index is at most the
cache length — which holds at every actual call site, where the index is a
handle cursor bounded by the cache length — performs at most one upstream
poll step, and no step at all when the index is strictly inside the cache
(the state is then left untouched) or the state is `Finished`. -/
theorem get_item_at_most_one_poll {σ Item : Type}
    (up : σ → σ × Poll (Option Item)) (values vs : List Item) (stream : σ)
    (idx : Nat) :
    (idx ≤ values.length →
        (get_item up (.Running values stream) idx).2.2.2 ≤ 1)
  ∧ (idx < values.length →
        (get_item up (.Running values stream) idx).2.2.2 = 0
        ∧ (get_item up (.Running values stream) idx).1
            = .Running values stream)
  ∧ (get_item up (.Finished vs) idx).2.2.2 = 0 := by
  refine ⟨?_, ?_, rfl⟩
  · intro h
    exact get_item_go_polls_le_one up idx values stream h
  · intro h
    have h2 := get_item_go_polls_zero up idx values stream h
    constructor
    · show (get_item_go up idx values stream).2.2.2 = 0
      rw [h2]
    · show (get_item_go up idx values stream).1 = .Running values stream
      rw [h2]

/-- Witness for C8's amended theorem at a concrete input. -/
theorem get_item_at_most_one_poll_witness :
    (get_item eventsPoll (.Running ([] : List Nat) [some 4]) 0).2.2.2 ≤ 1 :=
  (get_item_at_most_one_poll eventsPoll [] [] [some 4] 0).1 (by decide)

/-- C9: once the lock guarding the cross-thread handle's state is poisoned,
every subsequent `poll_next`, `size_hint` and `is_terminated` call fails
outright instead of touching the cached data. -/
theorem poisoned_lock_propagates {σ Item : Type}
    (up : σ → σ × Poll (Option Item)) (upHint : σ → Nat × Option Nat)
    (ls : LockState σ Item) (idx : Nat) (hp : ls.poisoned = true) :
    ashared_poll_next up ls idx = .error ()
  ∧ ashared_size_hint upHint ls idx = .error ()
  ∧ ashared_is_terminated ls idx = .error () := by
  have hl : lock_unwrap ls = .error () := by simp [lock_unwrap, hp]
  refine ⟨?_, ?_, ?_⟩
  · simp [ashared_poll_next, hl]
  · simp [ashared_size_hint, hl, Except.map]
  · simp [ashared_is_terminated, hl, Except.map]

/-- Witness for C9 on a concrete poisoned lock. -/
theorem poisoned_lock_propagates_witness :
    ashared_poll_next eventsPoll
        (⟨true, .Finished []⟩ : LockState (List (Option Nat)) Nat) 0
      = .error ()
  ∧ ashared_size_hint (fun _ => (0, none))
        (⟨true, .Finished []⟩ : LockState (List (Option Nat)) Nat) 0
      = .error ()
  ∧ ashared_is_terminated
        (⟨true, .Finished []⟩ : LockState (List (Option Nat)) Nat) 0
      = .error () :=
  poisoned_lock_propagates eventsPoll (fun _ => (0, none))
    ⟨true, .Finished []⟩ 0 rfl

/-- C10: a freshly wrapped handle has cursor 0 and an empty cache, and
after any sequence of operations every live handle's cursor is at most the
cache length — so the `values.len() - self.idx` subtractions in `size_hint`
and the comparison in `is_terminated` never underflow. -/
theorem cursor_within_cache {σ Item : Type}
    (up : σ → σ × Poll (Option Item)) (s0 : σ) (ops : List Op)
    (h idx : Nat) :
    ((Sys.wrap s0 : Sys σ Item).handles = [0]
        ∧ (Sys.wrap s0 : Sys σ Item).inner.values = [])
  ∧ ((run up (Sys.wrap s0 : Sys σ Item) ops).handles.get? h = some idx →
        idx ≤ (run up (Sys.wrap s0 : Sys σ Item) ops).inner.values.length) := by
  refine ⟨⟨rfl, rfl⟩, ?_⟩
  intro hh
  exact run_idxInv up (Sys.wrap s0) ops (wrap_idxInv s0) idx (List.get?_mem hh)

/-- Witness for C10 on a concrete run. -/
theorem cursor_within_cache_witness :
    (0 : Nat) ≤ (run eventsPoll
        (Sys.wrap ([] : List (Option Nat)) : Sys (List (Option Nat)) Nat)
        []).inner.values.length :=
  (cursor_within_cache eventsPoll [] [] 0 0).2 rfl

end SharedStream
